import Mathlib

/-!
Verification of a consistent-hashing ring against its design document.

The ring state holds a sorted list of virtual-node hashes (`ring`), an
association list mapping each vnode hash to its owning node identifier
(`vmap`, the Hash→Owner Map), and a registry of nodes with their weights
(`nodes`).  The hash function is injectable (`String → Nat`).  The two
collision-resolution while-loops of the source are unbounded in principle,
so they are embedded with an explicit fuel parameter and return `Option`:
`none` models divergence (or a missing-key error), `some` a completed call.
-/

/-- Lookup in an association list, mirroring a Python dict read
(first matching key wins; the embedding keeps keys unique). -/
def alookup {α β : Type} [DecidableEq α] : List (α × β) → α → Option β
  | [], _ => none
  | (k, v) :: m, a => if k = a then some v else alookup m a

/-- The vnode key string for a node and index (source: the f-string
joining the node id, a dash and the index). -/
def vnodeKey (nid : String) (i : Nat) : String := nid ++ "-" ++ toString i

/-- The salted retry key used on hash collisions (source: the f-string
joining the vnode key, an underscore and the salt counter). -/
def saltedKey (vk : String) (c : Nat) : String := vk ++ "_" ++ toString c

/-- The state of a `ConsistentHashRing` instance: configuration plus the
Ring list, the Hash→Owner Map and the Node Registry. -/
structure RingState where
  vnode_count : Nat
  replication_factor : Nat
  ring : List Nat
  vmap : List (Nat × String)
  nodes : List (String × Rat)
deriving DecidableEq

/-- The freshly constructed ring (`__init__`): empty Ring, Map, Registry. -/
def initRing (vc rf : Nat) : RingState :=
  { vnode_count := vc, replication_factor := rf, ring := [], vmap := [], nodes := [] }

/-- `int(self.vnode_count * weight)`: the number of virtual nodes a node of
the given weight receives.  For a nonnegative weight, Python truncation
agrees with the floor; a negative product yields an empty `range` either
way, matching `Int.toNat`. -/
def totalVnodes (vc : Nat) (w : Rat) : Nat := (⌊(vc : Rat) * w⌋).toNat

/-- `bisect.bisect_left(self.ring, key_hash)`: on a sorted list this is the
leftmost insertion point, i.e. the number of entries below the probe. -/
def bisect_left (l : List Nat) (x : Nat) : Nat := l.countP (fun h => decide (h < x))

/-- The collision-resolution loop of `add_node`: starting from hash `h`
with salt counter `c`, advance through salted re-hashes while the current
hash is occupied (`mem`).  `fuel` bounds the number of retries; the source
loop is unbounded. -/
def resolveAdd (hf : String → Nat) (mem : Nat → Bool) (vk : String) :
    Nat → Nat → Nat → Option Nat
  | fuel, c, h =>
    if mem h then
      match fuel with
      | 0 => none
      | fuel' + 1 => resolveAdd hf mem vk fuel' (c + 1) (hf (saltedKey vk (c + 1)))
    else some h

/-- One iteration of the vnode-insertion loop of `add_node`: resolve a free
hash for vnode `i` and append it to the pending ring and map. -/
def addOneVnode (hf : String → Nat) (fuel : Nat) (nid : String)
    (st : List Nat × List (Nat × String)) (i : Nat) :
    Option (List Nat × List (Nat × String)) :=
  let vk := vnodeKey nid i
  match resolveAdd hf (fun h => (alookup st.2 h).isSome) vk fuel 0 (hf vk) with
  | none => none
  | some h => some (st.1 ++ [h], st.2 ++ [(h, nid)])

/-- `ConsistentHashRing.add_node`.  Returns the new state and the printed
diagnostics; `none` models a diverging collision loop. -/
def add_node (hf : String → Nat) (fuel : Nat) (s : RingState) (nid : String) (w : Rat) :
    Option (RingState × List String) :=
  if (alookup s.nodes nid).isSome then
    some (s, ["Warning: Node '" ++ nid ++ "' already exists."])
  else
    match (List.range (totalVnodes s.vnode_count w)).foldlM
        (addOneVnode hf fuel nid) (s.ring, s.vmap) with
    | none => none
    | some (r, m) =>
      let r' := List.insertionSort (· ≤ ·) r
      let s' : RingState :=
        { s with ring := r', vmap := m, nodes := s.nodes ++ [(nid, w)] }
      some (s', ["Node '" ++ nid ++ "' added with " ++
        toString (totalVnodes s.vnode_count w) ++ " virtual nodes."])

/-- `ConsistentHashRing.get_node`, in state-passing style: the returned
state is the one the method leaves behind (it only reads). -/
def get_node (hf : String → Nat) (s : RingState) (key : String) :
    RingState × List String × Option String :=
  if s.ring.isEmpty then
    (s, ["Warning: No nodes in the hash ring."], none)
  else
    let idx := bisect_left s.ring (hf key) % s.ring.length
    (s, [], alookup s.vmap (s.ring.getD idx 0))

/-- The replica-collection loop of `get_nodes_for_key`: walk the ring
clockwise from `idx`, collecting distinct owners until `rc` are found.
`fuel` bounds the number of steps; the source loop is unbounded. -/
def walkLoop (vmap : List (Nat × String)) (ring : List Nat) (rc : Nat) :
    Nat → Nat → List String → Option (List String)
  | fuel, idx, result =>
    if rc ≤ result.length then some result
    else
      match fuel with
      | 0 => none
      | fuel' + 1 =>
        match alookup vmap (ring.getD idx 0) with
        | none => none
        | some nid =>
          walkLoop vmap ring rc fuel' ((idx + 1) % ring.length)
            (if nid ∈ result then result else result ++ [nid])

/-- `ConsistentHashRing.get_nodes_for_key`, in state-passing style: state,
printed diagnostics, and the collected replica owners. -/
def get_nodes_for_key (hf : String → Nat) (fuel : Nat) (s : RingState)
    (key : String) (replica_count : Option Nat) :
    Option (RingState × List String × List String) :=
  if s.ring.isEmpty then some (s, ["Warning: No nodes in the hash ring."], [])
  else
    let rc0 := replica_count.getD s.replication_factor
    let rc := if s.nodes.length < rc0 then s.nodes.length else rc0
    let warns := if s.nodes.length < rc0 then
        ["Warning: Requested replica count exceeds number of available nodes. Adjusting to maximum available nodes."]
      else []
    let idx := bisect_left s.ring (hf key) % s.ring.length
    match walkLoop s.vmap s.ring rc fuel idx [] with
    | none => none
    | some result => some (s, warns, result)

/-- The collision walk of `remove_node`: advance through salted re-hashes
while the current hash is occupied by a different node; stop as soon as it
is unoccupied or occupied by the node being removed. -/
def resolveRemove (hf : String → Nat) (vmap : List (Nat × String)) (nid vk : String) :
    Nat → Nat → Nat → Option Nat
  | fuel, c, h =>
    if alookup vmap h ≠ none ∧ alookup vmap h ≠ some nid then
      match fuel with
      | 0 => none
      | fuel' + 1 => resolveRemove hf vmap nid vk fuel' (c + 1) (hf (saltedKey vk (c + 1)))
    else some h

/-- One iteration of the vnode-marking loop of `remove_node`: resolve the
hash of vnode `i` and either mark it for removal or record the
virtual-node-not-found diagnostic. -/
def markVnode (hf : String → Nat) (fuel : Nat) (vmap : List (Nat × String)) (nid : String)
    (st : List Nat × List String) (i : Nat) : Option (List Nat × List String) :=
  let vk := vnodeKey nid i
  match resolveRemove hf vmap nid vk fuel 0 (hf vk) with
  | none => none
  | some h =>
    match alookup vmap h with
    | some own =>
      if own = nid then some (if h ∈ st.1 then st.1 else st.1 ++ [h], st.2)
      else some (st.1, st.2 ++ ["Warning: Virtual node for '" ++ vk ++ "' not found during removal."])
    | none => some (st.1, st.2 ++ ["Warning: Virtual node for '" ++ vk ++ "' not found during removal."])

/-- The rebuild loop of `remove_node`: keep the ring entries not marked for
removal, copying their owner entries in ring order.  A kept entry missing
from the map is a `KeyError` in the source, modelled as `none`. -/
def rebuildRing (vmap : List (Nat × String)) (toRemove : List Nat) :
    List Nat → Option (List Nat × List (Nat × String))
  | [] => some ([], [])
  | vh :: rest =>
    if vh ∈ toRemove then rebuildRing vmap toRemove rest
    else
      match alookup vmap vh with
      | none => none
      | some own =>
        match rebuildRing vmap toRemove rest with
        | none => none
        | some (r, m) => some (vh :: r, (vh, own) :: m)

/-- `ConsistentHashRing.remove_node`.  Returns the new state and the
printed diagnostics; `none` models a diverging collision loop or a
missing-key error. -/
def remove_node (hf : String → Nat) (fuel : Nat) (s : RingState) (nid : String) :
    Option (RingState × List String) :=
  match alookup s.nodes nid with
  | none => some (s, ["Warning: Node '" ++ nid ++ "' does not exist."])
  | some w =>
    match (List.range (totalVnodes s.vnode_count w)).foldlM
        (markVnode hf fuel s.vmap nid) ([], []) with
    | none => none
    | some (toRemove, warns) =>
      match rebuildRing s.vmap toRemove s.ring with
      | none => none
      | some (r, m) =>
        let s' : RingState :=
          { s with ring := r, vmap := m,
                   nodes := s.nodes.filter (fun p => decide (p.1 ≠ nid)) }
        some (s', warns ++ ["Node '" ++ nid ++ "' removed with " ++
          toString toRemove.length ++ " virtual nodes from the hash ring."])

/-- Minimum of a list of naturals, used to state the spec-side lookup rule. -/
def listMin : List Nat → Option Nat
  | [] => none
  | h :: t =>
    match listMin t with
    | none => some h
    | some m => some (min h m)

/-- Modelled from the spec: the smallest ring entry that is at least the
key's hash (section 4.2's lookup rule before wrapping). -/
def smallestGE (ring : List Nat) (kh : Nat) : Option Nat :=
  listMin (ring.filter (fun h => decide (kh ≤ h)))

/-- Modelled from the spec: the owner of the smallest ring hash at least
the key's hash, wrapping to the smallest ring hash when the key's hash
exceeds every entry (section 4.2). -/
def spec_owner (s : RingState) (kh : Nat) : Option String :=
  if s.ring.isEmpty then none
  else
    match smallestGE s.ring kh with
    | some h => alookup s.vmap h
    | none =>
      match listMin s.ring with
      | some h => alookup s.vmap h
      | none => none

/-- Invariants 1–2 of the data model, together with the dict representation
facts the embedding keeps implicit (unique keys): the Ring is sorted and
duplicate-free, the map's key set is exactly the Ring's value set, and the
two dicts have unique keys. -/
def Inv12 (s : RingState) : Prop :=
  s.ring.Sorted (· ≤ ·) ∧ s.ring.Nodup ∧
  (∀ h, h ∈ s.vmap.map Prod.fst ↔ h ∈ s.ring) ∧
  (s.vmap.map Prod.fst).Nodup ∧ (s.nodes.map Prod.fst).Nodup

/-- Invariant 4 of the data model: the owners appearing in the Hash→Owner
Map are exactly the registered node identifiers. -/
def Inv4 (s : RingState) : Prop :=
  ∀ n, n ∈ s.vmap.map Prod.snd ↔ n ∈ s.nodes.map Prod.fst

/-- Replica collection over an explicit finite list of visited owners,
used to analyse `walkLoop` (which coincides with it when every visited
ring entry has an owner). -/
def boundedCollect (rc : Nat) : List String → List String → Option (List String)
  | [], acc => if rc ≤ acc.length then some acc else none
  | o :: os, acc =>
    if rc ≤ acc.length then some acc
    else boundedCollect rc os (if o ∈ acc then acc else acc ++ [o])

/-- Unbounded first-occurrence collection: the distinct owners in the
order first encountered, appended to an accumulator. -/
def collectAll : List String → List String → List String
  | [], acc => acc
  | o :: os, acc => collectAll os (if o ∈ acc then acc else acc ++ [o])

/-- The owners of the ring entries visited by the clockwise walk starting
at `idx`, for a given number of steps. -/
def visitOwners (vmap : List (Nat × String)) (ring : List Nat) : Nat → Nat → List String
  | _, 0 => []
  | idx, fuel + 1 =>
    ((alookup vmap (ring.getD idx 0)).getD "") ::
      visitOwners vmap ring ((idx + 1) % ring.length) fuel

/-- A concrete hash function under which the first two vnode keys of node
`n` collide (both map to 5) while the salted retry key maps elsewhere;
collisions are a first-class case for the injectable hash function. -/
def cexHF : String → Nat :=
  fun t => if t = "n-0" then 5 else if t = "n-1" then 5 else if t = "n-1_1" then 7 else 0

/-- A concrete two-node ring state used to exercise the query operations. -/
def sTwo : RingState :=
  { vnode_count := 1, replication_factor := 3, ring := [3, 5],
    vmap := [(3, "a"), (5, "b")], nodes := [("a", 1), ("b", 1)] }

/-! ### Association-list lemmas -/

theorem alookup_append {α β : Type} [DecidableEq α] (m₁ m₂ : List (α × β)) (a : α) :
    alookup (m₁ ++ m₂) a =
      match alookup m₁ a with
      | some v => some v
      | none => alookup m₂ a := by
  induction m₁ with
  | nil => simp [alookup]
  | cons p m ih =>
    obtain ⟨k, v⟩ := p
    by_cases hk : k = a
    · simp [alookup, hk]
    · simp [alookup, hk, ih]

theorem alookup_eq_none {α β : Type} [DecidableEq α] (m : List (α × β)) (a : α) :
    alookup m a = none ↔ a ∉ m.map Prod.fst := by
  induction m with
  | nil => simp [alookup]
  | cons p m ih =>
    obtain ⟨k, v⟩ := p
    by_cases hk : k = a
    · simp [alookup, hk]
    · simp [alookup, hk, ih, Ne.symm hk]

theorem alookup_isSome {α β : Type} [DecidableEq α] (m : List (α × β)) (a : α) :
    (alookup m a).isSome = true ↔ a ∈ m.map Prod.fst := by
  rw [Option.isSome_iff_ne_none, Ne, alookup_eq_none, not_not]

theorem alookup_mem {α β : Type} [DecidableEq α] {m : List (α × β)} {a : α} {b : β}
    (h : alookup m a = some b) : (a, b) ∈ m := by
  induction m with
  | nil => simp [alookup] at h
  | cons p m ih =>
    obtain ⟨k, v⟩ := p
    by_cases hk : k = a
    · subst hk
      simp [alookup] at h
      simp [h]
    · simp [alookup, hk] at h
      simp [ih h]

theorem mem_alookup {α β : Type} [DecidableEq α] {a : α} {b : β} :
    ∀ {m : List (α × β)}, (m.map Prod.fst).Nodup → (a, b) ∈ m → alookup m a = some b := by
  intro m
  induction m with
  | nil =>
    intro _ h
    simp at h
  | cons p m ih =>
    intro hnd h
    obtain ⟨k, v⟩ := p
    simp at hnd
    rcases List.mem_cons.mp h with h | h
    · injection h with h1 h2
      subst h1
      subst h2
      simp [alookup]
    · have hka : k ≠ a := by
        intro hk
        subst hk
        exact hnd.1 b h
      simp [alookup, hka, ih hnd.2 h]

theorem alookup_mem_values {α β : Type} [DecidableEq α] {m : List (α × β)} {a : α} {b : β}
    (h : alookup m a = some b) : b ∈ m.map Prod.snd := by
  have := alookup_mem h
  exact List.mem_map.mpr ⟨(a, b), this, rfl⟩

/-! ### Collision-resolution lemmas -/

theorem resolveAdd_not_mem {hf : String → Nat} {mem : Nat → Bool} {vk : String}
    {fuel c h : Nat} (hm : mem h = false) :
    resolveAdd hf mem vk fuel c h = some h := by
  unfold resolveAdd
  simp [hm]

theorem resolveAdd_post {hf : String → Nat} {mem : Nat → Bool} {vk : String} :
    ∀ {fuel c h h' : Nat}, resolveAdd hf mem vk fuel c h = some h' → mem h' = false := by
  intro fuel
  induction fuel with
  | zero =>
    intro c h h' hr
    unfold resolveAdd at hr
    by_cases hm : mem h
    · simp [hm] at hr
    · simp [hm] at hr
      subst hr
      simpa using hm
  | succ fuel ih =>
    intro c h h' hr
    unfold resolveAdd at hr
    by_cases hm : mem h
    · simp [hm] at hr
      exact ih hr
    · simp [hm] at hr
      subst hr
      simpa using hm

theorem resolveRemove_owner {hf : String → Nat} {vmap : List (Nat × String)}
    {nid vk : String} {fuel c h : Nat} (hm : alookup vmap h = some nid) :
    resolveRemove hf vmap nid vk fuel c h = some h := by
  unfold resolveRemove
  simp [hm]

theorem alookup_append_none {α β : Type} [DecidableEq α] {m₁ m₂ : List (α × β)} {a : α}
    (h : alookup (m₁ ++ m₂) a = none) : alookup m₁ a = none ∧ alookup m₂ a = none := by
  rw [alookup_append] at h
  rcases h1 : alookup m₁ a with _ | v
  · rw [h1] at h
    exact ⟨rfl, h⟩
  · rw [h1] at h
    simp at h

theorem alookup_singleton_none {α β : Type} [DecidableEq α] {k a : α} {v : β}
    (h : alookup [(k, v)] a = none) : k ≠ a := by
  intro hk
  simp [alookup, hk] at h

/-! ### Characterisation of the vnode-insertion loop of `add_node` -/

theorem addFold_characterize {hf : String → Nat} {fuel : Nat} {nid : String} :
    ∀ (L : List Nat) (r : List Nat) (m : List (Nat × String))
      (out : List Nat × List (Nat × String)),
      L.foldlM (addOneVnode hf fuel nid) (r, m) = some out →
      ∃ new : List (Nat × String),
        out = (r ++ new.map Prod.fst, m ++ new) ∧
        (∀ p ∈ new, p.2 = nid) ∧
        new.length = L.length ∧
        (new.map Prod.fst).Nodup ∧
        (∀ p ∈ new, alookup m p.1 = none) := by
  intro L
  induction L with
  | nil =>
    intro r m out hout
    simp [List.foldlM] at hout
    exact ⟨[], by simp [hout.symm], by simp, by simp, by simp, by simp⟩
  | cons i L ih =>
    intro r m out hout
    rw [List.foldlM_cons] at hout
    rcases hres : resolveAdd hf (fun h => (alookup m h).isSome) (vnodeKey nid i) fuel 0
        (hf (vnodeKey nid i)) with _ | h
    · simp [addOneVnode, hres] at hout
    · have hfree : alookup m h = none := by
        have := resolveAdd_post hres
        simpa using this
      simp only [addOneVnode, hres, Option.some_bind] at hout
      rcases ih (r ++ [h]) (m ++ [(h, nid)]) out hout with
        ⟨new', hout', hval', hlen', hnd', hfresh'⟩
      refine ⟨(h, nid) :: new', ?_, ?_, ?_, ?_, ?_⟩
      · rw [hout']
        simp
      · intro p hp
        rcases List.mem_cons.mp hp with hp | hp
        · rw [hp]
        · exact hval' p hp
      · simp [hlen']
      · simp only [List.map_cons, List.nodup_cons]
        constructor
        · intro hmem
          rcases List.mem_map.mp hmem with ⟨p, hp, hp1⟩
          have := alookup_append_none (hfresh' p hp)
          exact alookup_singleton_none this.2 hp1.symm
        · exact hnd'
      · intro p hp
        rcases List.mem_cons.mp hp with hp | hp
        · rw [hp]
          exact hfree
        · exact (alookup_append_none (hfresh' p hp)).1

theorem addFold_noSalt {hf : String → Nat} {fuel : Nat} {nid : String} :
    ∀ (L : List Nat) (r : List Nat) (m : List (Nat × String)),
      (∀ i ∈ L, alookup m (hf (vnodeKey nid i)) = none) →
      (∀ i ∈ L, ∀ j ∈ L, hf (vnodeKey nid i) = hf (vnodeKey nid j) → i = j) →
      L.Nodup →
      L.foldlM (addOneVnode hf fuel nid) (r, m) =
        some (r ++ L.map (fun i => hf (vnodeKey nid i)),
              m ++ L.map (fun i => (hf (vnodeKey nid i), nid))) := by
  intro L
  induction L with
  | nil =>
    intro r m _ _ _
    simp [List.foldlM]
  | cons i L ih =>
    intro r m hfresh hdist hnd
    rw [List.foldlM_cons]
    have hres : resolveAdd hf (fun h => (alookup m h).isSome) (vnodeKey nid i) fuel 0
        (hf (vnodeKey nid i)) = some (hf (vnodeKey nid i)) := by
      apply resolveAdd_not_mem
      simp [hfresh i (List.mem_cons_self i L)]
    simp only [addOneVnode, hres]
    have hnd' := (List.nodup_cons.mp hnd).2
    have hini : i ∉ L := (List.nodup_cons.mp hnd).1
    show List.foldlM (addOneVnode hf fuel nid)
        (r ++ [hf (vnodeKey nid i)], m ++ [(hf (vnodeKey nid i), nid)]) L = _
    rw [ih (r ++ [hf (vnodeKey nid i)]) (m ++ [(hf (vnodeKey nid i), nid)]) ?_ ?_ hnd']
    · simp
    · intro j hj
      rw [alookup_append]
      rw [hfresh j (List.mem_cons_of_mem i hj)]
      have hne : hf (vnodeKey nid i) ≠ hf (vnodeKey nid j) := by
        intro heq
        exact hini (hdist i (List.mem_cons_self i L) j (List.mem_cons_of_mem i hj) heq ▸ hj)
      simp [alookup, hne]
    · intro a ha b hb
      exact hdist a (List.mem_cons_of_mem i ha) b (List.mem_cons_of_mem i hb)

/-! ### Characterisation of the vnode-marking loop of `remove_node` -/

theorem markFold_all_found {hf : String → Nat} {fuel : Nat}
    {vmap : List (Nat × String)} {nid : String} :
    ∀ (L : List Nat) (M0 : List Nat) (W0 : List String),
      (∀ i ∈ L, alookup vmap (hf (vnodeKey nid i)) = some nid) →
      ∃ M : List Nat,
        L.foldlM (markVnode hf fuel vmap nid) (M0, W0) = some (M, W0) ∧
        (∀ h, h ∈ M ↔ h ∈ M0 ∨ ∃ i ∈ L, hf (vnodeKey nid i) = h) := by
  intro L
  induction L with
  | nil =>
    intro M0 W0 _
    exact ⟨M0, by simp [List.foldlM], by simp⟩
  | cons i L ih =>
    intro M0 W0 hown
    have hi := hown i (List.mem_cons_self i L)
    have hstep : markVnode hf fuel vmap nid (M0, W0) i =
        some (if hf (vnodeKey nid i) ∈ M0 then M0 else M0 ++ [hf (vnodeKey nid i)], W0) := by
      simp [markVnode, resolveRemove_owner hi, hi]
    rw [List.foldlM_cons, hstep]
    have hrest : ∀ j ∈ L, alookup vmap (hf (vnodeKey nid j)) = some nid :=
      fun j hj => hown j (List.mem_cons_of_mem i hj)
    rcases ih (if hf (vnodeKey nid i) ∈ M0 then M0 else M0 ++ [hf (vnodeKey nid i)]) W0 hrest
      with ⟨M, hfold, hmem⟩
    refine ⟨M, ?_, ?_⟩
    · exact hfold
    · intro h
      rw [hmem h]
      by_cases hin : hf (vnodeKey nid i) ∈ M0
      · simp only [if_pos hin]
        constructor
        · intro hc
          rcases hc with hc | hc
          · exact Or.inl hc
          · rcases hc with ⟨j, hj, hje⟩
            exact Or.inr ⟨j, List.mem_cons_of_mem i hj, hje⟩
        · intro hc
          rcases hc with hc | hc
          · exact Or.inl hc
          · rcases hc with ⟨j, hj, hje⟩
            rcases List.mem_cons.mp hj with hj | hj
            · subst hj
              exact Or.inl (hje ▸ hin)
            · exact Or.inr ⟨j, hj, hje⟩
      · simp only [if_neg hin]
        constructor
        · intro hc
          rcases hc with hc | hc
          · rcases List.mem_append.mp hc with hc | hc
            · exact Or.inl hc
            · exact Or.inr ⟨i, List.mem_cons_self i L, (List.mem_singleton.mp hc).symm⟩
          · rcases hc with ⟨j, hj, hje⟩
            exact Or.inr ⟨j, List.mem_cons_of_mem i hj, hje⟩
        · intro hc
          rcases hc with hc | hc
          · exact Or.inl (List.mem_append.mpr (Or.inl hc))
          · rcases hc with ⟨j, hj, hje⟩
            rcases List.mem_cons.mp hj with hj | hj
            · subst hj
              exact Or.inl (List.mem_append.mpr (Or.inr (by simp [← hje])))
            · exact Or.inr ⟨j, hj, hje⟩

/-! ### Characterisation of the rebuild loop of `remove_node` -/

theorem rebuild_characterize {vmap : List (Nat × String)} {rm : List Nat} :
    ∀ (ringl r2 : List Nat) (m2 : List (Nat × String)),
      rebuildRing vmap rm ringl = some (r2, m2) →
      r2 = ringl.filter (fun h => decide (h ∉ rm)) ∧
      (∀ h, alookup m2 h = if h ∈ r2 then alookup vmap h else none) ∧
      m2.map Prod.fst = r2 ∧
      (∀ p : Nat × String, p ∈ m2 ↔ p.1 ∈ r2 ∧ alookup vmap p.1 = some p.2) := by
  intro ringl
  induction ringl with
  | nil =>
    intro r2 m2 hout
    simp [rebuildRing] at hout
    rcases hout with ⟨h1, h2⟩
    subst h1
    subst h2
    refine ⟨by simp, by simp [alookup], by simp, by simp⟩
  | cons vh rest ih =>
    intro r2 m2 hout
    by_cases hrm : vh ∈ rm
    · rw [show rebuildRing vmap rm (vh :: rest) = rebuildRing vmap rm rest by
        simp [rebuildRing, hrm]] at hout
      rcases ih r2 m2 hout with ⟨h1, h2, h3, h4⟩
      refine ⟨?_, h2, h3, h4⟩
      rw [h1, List.filter_cons]
      simp [hrm]
    · rcases hlook : alookup vmap vh with _ | own
      · rw [show rebuildRing vmap rm (vh :: rest) = none by
          simp [rebuildRing, hrm, hlook]] at hout
        exact absurd hout (by simp)
      · rcases hrec : rebuildRing vmap rm rest with _ | pr
        · rw [show rebuildRing vmap rm (vh :: rest) = none by
            simp [rebuildRing, hrm, hlook, hrec]] at hout
          exact absurd hout (by simp)
        · obtain ⟨r', m'⟩ := pr
          rw [show rebuildRing vmap rm (vh :: rest) = some (vh :: r', (vh, own) :: m') by
            simp [rebuildRing, hrm, hlook, hrec]] at hout
          rcases hout with ⟨h1, h2⟩
          rcases ih r' m' hrec with ⟨ih1, ih2, ih3, ih4⟩
          constructor
          · simp [List.filter_cons, hrm, ih1]
          constructor
          · intro h
            by_cases hvh : vh = h
            · subst hvh
              simp [alookup, hlook]
            · simp only [alookup, if_neg hvh, ih2 h]
              by_cases hr : h ∈ r'
              · rw [if_pos hr, if_pos (List.mem_cons_of_mem _ hr)]
              · have hnc : h ∉ vh :: r' := by
                  intro hc
                  rcases List.mem_cons.mp hc with hc | hc
                  · exact hvh hc.symm
                  · exact hr hc
                rw [if_neg hr, if_neg hnc]
          constructor
          · simp [ih3]
          · intro p
            constructor
            · intro hp
              rcases List.mem_cons.mp hp with hp | hp
              · subst hp
                exact ⟨List.mem_cons_self _ _, hlook⟩
              · rcases (ih4 p).mp hp with ⟨hp1, hp2⟩
                exact ⟨List.mem_cons_of_mem _ hp1, hp2⟩
            · intro hp
              rcases hp with ⟨hp1, hp2⟩
              rcases List.mem_cons.mp hp1 with hp1 | hp1
              · subst hp1
                rw [hlook] at hp2
                have heta : (p.1, own) = p := by
                  have : own = p.2 := by
                    injection hp2
                  rw [this]
                rw [heta]
                exact List.mem_cons_self _ _
              · right
                exact (ih4 p).mpr ⟨hp1, hp2⟩

/-! ### Analysis of the replica-collection walk -/

theorem collectAll_extend : ∀ (l acc : List String), ∃ ext, collectAll l acc = acc ++ ext := by
  intro l
  induction l with
  | nil =>
    intro acc
    exact ⟨[], by simp [collectAll]⟩
  | cons o os ih =>
    intro acc
    by_cases ho : o ∈ acc
    · rcases ih acc with ⟨ext, hext⟩
      exact ⟨ext, by simp [collectAll, ho, hext]⟩
    · rcases ih (acc ++ [o]) with ⟨ext, hext⟩
      exact ⟨[o] ++ ext, by simp [collectAll, ho, hext]⟩

theorem mem_collectAll_of_mem_acc {a : String} :
    ∀ {l acc : List String}, a ∈ acc → a ∈ collectAll l acc := by
  intro l acc ha
  rcases collectAll_extend l acc with ⟨ext, hext⟩
  rw [hext]
  exact List.mem_append_left _ ha

theorem mem_collectAll_of_mem {a : String} :
    ∀ (l acc : List String), a ∈ l → a ∈ collectAll l acc := by
  intro l
  induction l with
  | nil =>
    intro acc ha
    simp at ha
  | cons o os ih =>
    intro acc ha
    rcases List.mem_cons.mp ha with ha | ha
    · subst ha
      by_cases ho : a ∈ acc
      · simp only [collectAll, if_pos ho]
        exact mem_collectAll_of_mem_acc ho
      · simp only [collectAll, if_neg ho]
        exact mem_collectAll_of_mem_acc (List.mem_append_right _ (List.mem_singleton.mpr rfl))
    · by_cases ho : o ∈ acc <;> simp only [collectAll, if_pos, if_neg, ho, ite_true, ite_false] <;>
        exact ih _ ha

theorem collectAll_nodup : ∀ (l acc : List String), acc.Nodup → (collectAll l acc).Nodup := by
  intro l
  induction l with
  | nil =>
    intro acc h
    simpa [collectAll] using h
  | cons o os ih =>
    intro acc h
    by_cases ho : o ∈ acc
    · simp only [collectAll, if_pos ho]
      exact ih acc h
    · simp only [collectAll, if_neg ho]
      apply ih
      exact List.Nodup.append h (List.nodup_singleton o)
        (fun a ha hb => ho ((List.mem_singleton.mp hb) ▸ ha))

theorem boundedCollect_eq_take {rc : Nat} :
    ∀ (l acc : List String), acc.length ≤ rc → rc ≤ (collectAll l acc).length →
      boundedCollect rc l acc = some ((collectAll l acc).take rc) := by
  intro l
  induction l with
  | nil =>
    intro acc hle hge
    simp only [collectAll] at hge ⊢
    have heq : rc = acc.length := le_antisymm hge hle
    simp [boundedCollect, hge, heq]
  | cons o os ih =>
    intro acc hle hge
    have hca : collectAll (o :: os) acc = collectAll os (if o ∈ acc then acc else acc ++ [o]) := by
      by_cases ho : o ∈ acc <;> simp [collectAll, ho]
    by_cases hstop : rc ≤ acc.length
    · have heq : acc.length = rc := le_antisymm hle hstop
      rcases collectAll_extend (o :: os) acc with ⟨ext, hext⟩
      rw [hext, ← heq, List.take_left]
      simp [boundedCollect, hstop]
    · have hstep : boundedCollect rc (o :: os) acc =
          boundedCollect rc os (if o ∈ acc then acc else acc ++ [o]) := by
        simp [boundedCollect, hstop]
      have hacc' : (if o ∈ acc then acc else acc ++ [o]).length ≤ rc := by
        by_cases ho : o ∈ acc
        · simp only [if_pos ho]
          exact hle
        · simp only [if_neg ho, List.length_append, List.length_singleton]
          omega
      rw [hstep, hca]
      rw [hca] at hge
      exact ih _ hacc' hge

theorem walkLoop_eq_boundedCollect {vmap : List (Nat × String)} {ring : List Nat} {rc : Nat}
    (hlen : 0 < ring.length) (hcov : ∀ h ∈ ring, (alookup vmap h).isSome = true) :
    ∀ (fuel idx : Nat) (acc : List String), idx < ring.length →
      walkLoop vmap ring rc fuel idx acc =
        boundedCollect rc (visitOwners vmap ring idx fuel) acc := by
  intro fuel
  induction fuel with
  | zero =>
    intro idx acc _
    by_cases hstop : rc ≤ acc.length <;>
      simp [walkLoop, visitOwners, boundedCollect, hstop]
  | succ fuel ih =>
    intro idx acc hidx
    by_cases hstop : rc ≤ acc.length
    · simp [walkLoop, visitOwners, boundedCollect, hstop]
    · have hmem : ring.getD idx 0 ∈ ring := by
        rw [List.getD_eq_getElem ring 0 hidx]
        exact List.getElem_mem hidx
      rcases hsome : alookup vmap (ring.getD idx 0) with _ | nid
      · exact absurd (hcov _ hmem) (by rw [hsome]; simp)
      · rw [walkLoop]
        simp only [if_neg hstop, hsome]
        rw [show visitOwners vmap ring idx (fuel + 1) =
            nid :: visitOwners vmap ring ((idx + 1) % ring.length) fuel by
          simp only [visitOwners]
          rw [hsome]
          rfl]
        rw [show boundedCollect rc (nid :: visitOwners vmap ring ((idx + 1) % ring.length) fuel) acc =
            boundedCollect rc (visitOwners vmap ring ((idx + 1) % ring.length) fuel)
              (if nid ∈ acc then acc else acc ++ [nid]) by
          simp [boundedCollect, hstop]]
        exact ih ((idx + 1) % ring.length) _ (Nat.mod_lt _ hlen)

theorem visitOwners_append {vmap : List (Nat × String)} {ring : List Nat}
    (hlen : 0 < ring.length) :
    ∀ (a b idx : Nat), idx < ring.length →
      visitOwners vmap ring idx (a + b) =
        visitOwners vmap ring idx a ++ visitOwners vmap ring ((idx + a) % ring.length) b := by
  intro a
  induction a with
  | zero =>
    intro b idx hidx
    simp [visitOwners, Nat.mod_eq_of_lt hidx]
  | succ a ih =>
    intro b idx hidx
    rw [show a + 1 + b = (a + b) + 1 by omega]
    simp only [visitOwners, List.cons_append]
    rw [ih b ((idx + 1) % ring.length) (Nat.mod_lt _ hlen)]
    congr 2
    rw [Nat.mod_add_mod]
    rw [show idx + 1 + a = idx + (a + 1) from by omega]

theorem visitOwners_covers_segment {vmap : List (Nat × String)} {ring : List Nat} :
    ∀ (k idx p : Nat), idx ≤ p → p < ring.length → p < idx + k →
      ((alookup vmap (ring.getD p 0)).getD "") ∈ visitOwners vmap ring idx k := by
  intro k
  induction k with
  | zero =>
    intro idx p h1 _ h3
    omega
  | succ k ih =>
    intro idx p h1 h2 h3
    by_cases hp : p = idx
    · subst hp
      simp [visitOwners]
    · have hlt : idx + 1 ≤ p := by omega
      have hi1 : (idx + 1) % ring.length = idx + 1 := Nat.mod_eq_of_lt (by omega)
      simp only [visitOwners]
      refine List.mem_cons_of_mem _ ?_
      rw [hi1]
      exact ih (idx + 1) p hlt h2 (by omega)

theorem visitOwners_covers {vmap : List (Nat × String)} {ring : List Nat}
    (hlen : 0 < ring.length) (idx p : Nat) (hidx : idx < ring.length)
    (hp : p < ring.length) :
    ((alookup vmap (ring.getD p 0)).getD "") ∈ visitOwners vmap ring idx ring.length := by
  rw [show ring.length = (ring.length - idx) + idx by omega]
  rw [visitOwners_append hlen (ring.length - idx) idx idx hidx]
  by_cases hip : idx ≤ p
  · apply List.mem_append_left
    exact visitOwners_covers_segment (ring.length - idx) idx p hip hp (by omega)
  · apply List.mem_append_right
    have h0 : (idx + (ring.length - idx)) % ring.length = 0 := by
      rw [show idx + (ring.length - idx) = ring.length by omega]
      exact Nat.mod_self _
    rw [h0]
    exact visitOwners_covers_segment idx 0 p (Nat.zero_le p) hp (by omega)

theorem collectAll_covers_keys {vmap : List (Nat × String)} {ring : List Nat}
    (hlen : 0 < ring.length)
    {keys : List String} (hknd : keys.Nodup)
    (hreg : ∀ n ∈ keys, ∃ h ∈ ring, alookup vmap h = some n)
    {idx : Nat} (hidx : idx < ring.length) :
    keys.length ≤ (collectAll (visitOwners vmap ring idx ring.length) []).length := by
  have hsub : keys ⊆ collectAll (visitOwners vmap ring idx ring.length) [] := by
    intro n hn
    rcases hreg n hn with ⟨h, hh, hown⟩
    rcases List.mem_iff_getElem.mp hh with ⟨p, hp, hpe⟩
    have hval : ((alookup vmap (ring.getD p 0)).getD "") = n := by
      rw [List.getD_eq_getElem ring 0 hp, hpe, hown]
      rfl
    have hmem := @visitOwners_covers vmap ring hlen idx p hidx hp
    rw [hval] at hmem
    exact mem_collectAll_of_mem _ _ hmem
  exact (hknd.subperm hsub).length_le

theorem walk_succeeds {vmap : List (Nat × String)} {ring : List Nat} {rc : Nat}
    (hlen : 0 < ring.length) (hcov : ∀ h ∈ ring, (alookup vmap h).isSome = true)
    {keys : List String} (hknd : keys.Nodup)
    (hreg : ∀ n ∈ keys, ∃ h ∈ ring, alookup vmap h = some n)
    (hrc : rc ≤ keys.length) {idx : Nat} (hidx : idx < ring.length) :
    walkLoop vmap ring rc ring.length idx [] =
      some ((collectAll (visitOwners vmap ring idx ring.length) []).take rc) := by
  rw [walkLoop_eq_boundedCollect hlen hcov ring.length idx [] hidx]
  apply boundedCollect_eq_take
  · simp
  · exact le_trans hrc (collectAll_covers_keys hlen hknd hreg hidx)

/-! ### The sorted-lookup rule of `get_node` -/

theorem listMin_sorted_cons : ∀ {a : Nat} {t : List Nat},
    List.Sorted (· ≤ ·) (a :: t) → listMin (a :: t) = some a := by
  intro a t
  induction t generalizing a with
  | nil =>
    intro _
    simp [listMin]
  | cons b t ih =>
    intro hs
    have hab : a ≤ b := (List.sorted_cons.mp hs).1 b (List.mem_cons_self b t)
    have hs' : List.Sorted (· ≤ ·) (b :: t) := (List.sorted_cons.mp hs).2
    have : listMin (a :: b :: t) =
        match listMin (b :: t) with
        | none => some a
        | some m => some (min a m) := rfl
    rw [this, ih hs']
    simp [min_eq_left hab]

theorem listMin_eq_none : ∀ {l : List Nat}, listMin l = none ↔ l = [] := by
  intro l
  cases l with
  | nil => simp [listMin]
  | cons a t =>
    constructor
    · intro h
      exfalso
      have he : listMin (a :: t) =
          match listMin t with
          | none => some a
          | some m => some (min a m) := rfl
      rcases h' : listMin t with _ | m
      · rw [he, h'] at h
        simp at h
      · rw [he, h'] at h
        simp at h
    · intro h
      exact absurd h (by simp)

theorem sorted_bisect_target {kh : Nat} :
    ∀ (l : List Nat), l ≠ [] → List.Sorted (· ≤ ·) l →
      (some (l.getD (l.countP (fun h => decide (h < kh)) % l.length) 0) =
        match smallestGE l kh with
        | some h => some h
        | none => listMin l) := by
  intro l
  induction l with
  | nil =>
    intro h
    exact absurd rfl h
  | cons a t ih =>
    intro _ hs
    have hst : List.Sorted (· ≤ ·) t := (List.sorted_cons.mp hs).2
    have hat : ∀ b ∈ t, a ≤ b := (List.sorted_cons.mp hs).1
    by_cases hak : a < kh
    · have hcp : (a :: t).countP (fun h => decide (h < kh)) =
          t.countP (fun h => decide (h < kh)) + 1 := by
        rw [List.countP_cons]
        simp [hak]
      have hge : smallestGE (a :: t) kh = smallestGE t kh := by
        unfold smallestGE
        rw [List.filter_cons]
        simp [show ¬ kh ≤ a by omega]
      by_cases hall : t.countP (fun h => decide (h < kh)) = t.length
      · have hidx : (a :: t).countP (fun h => decide (h < kh)) % (a :: t).length = 0 := by
          rw [hcp, hall, List.length_cons, Nat.mod_self]
        have hsge : smallestGE t kh = none := by
          unfold smallestGE
          rw [listMin_eq_none, List.filter_eq_nil_iff]
          intro b hb
          have := List.countP_eq_length.mp hall b hb
          simp at this ⊢
          omega
        rw [hidx, List.getD_cons_zero, hge, hsge]
        exact (listMin_sorted_cons hs).symm
      · have hlt : t.countP (fun h => decide (h < kh)) < t.length :=
          lt_of_le_of_ne (List.countP_le_length _) hall
        have htne : t ≠ [] := by
          intro he
          rw [he] at hlt
          simp at hlt
        have hidx : (a :: t).countP (fun h => decide (h < kh)) % (a :: t).length =
            t.countP (fun h => decide (h < kh)) + 1 := by
          rw [hcp, List.length_cons]
          exact Nat.mod_eq_of_lt (by omega)
        rcases hsge : smallestGE t kh with _ | h'
        · exfalso
          unfold smallestGE at hsge
          rw [listMin_eq_none, List.filter_eq_nil_iff] at hsge
          apply hall
          rw [List.countP_eq_length]
          intro b hb
          have := hsge b hb
          simp at this ⊢
          omega
        · have iht := ih htne hst
          rw [Nat.mod_eq_of_lt hlt, hsge] at iht
          rw [hidx, List.getD_cons_succ, hge, hsge]
          exact iht
    · have hcp : (a :: t).countP (fun h => decide (h < kh)) = 0 := by
        rw [List.countP_eq_zero]
        intro b hb
        rcases List.mem_cons.mp hb with hb | hb
        · subst hb
          simp [hak]
        · have := hat b hb
          simp
          omega
      have hfil : (a :: t).filter (fun h => decide (kh ≤ h)) = a :: t := by
        rw [List.filter_eq_self]
        intro b hb
        rcases List.mem_cons.mp hb with hb | hb
        · subst hb
          simp
          omega
        · have := hat b hb
          simp
          omega
      have hsge : smallestGE (a :: t) kh = some a := by
        unfold smallestGE
        rw [hfil]
        exact listMin_sorted_cons hs
      rw [hcp, Nat.zero_mod, List.getD_cons_zero, hsge]

/-! ### State-framing helpers for the query operations -/

theorem get_node_state_eq (hf : String → Nat) (s : RingState) (key : String) :
    (get_node hf s key).1 = s := by
  unfold get_node
  by_cases h : s.ring.isEmpty <;> simp [h]

theorem get_nodes_for_key_state_eq {hf : String → Nat} {fuel : Nat} {s : RingState}
    {key : String} {rc : Option Nat} {out : RingState × List String × List String}
    (hout : get_nodes_for_key hf fuel s key rc = some out) : out.1 = s := by
  unfold get_nodes_for_key at hout
  by_cases h : s.ring.isEmpty
  · rw [if_pos h] at hout
    injection hout with hout
    rw [← hout]
  · rw [if_neg h] at hout
    dsimp only at hout
    split at hout
    · exact absurd hout (by simp)
    · injection hout with hout
      rw [← hout]

/-! ### Claims -/

/-- Claim C7: calling `add_node` with an already-registered id, or
`remove_node` with an unregistered id, returns the state entirely
unchanged and emits only the corresponding warning diagnostic. -/
theorem claim_C7 (hf : String → Nat) (fuel : Nat) (s : RingState)
    (nid nid' : String) (w : Rat)
    (hdup : (alookup s.nodes nid).isSome = true)
    (hmiss : alookup s.nodes nid' = none) :
    add_node hf fuel s nid w =
      some (s, ["Warning: Node '" ++ nid ++ "' already exists."]) ∧
    remove_node hf fuel s nid' =
      some (s, ["Warning: Node '" ++ nid' ++ "' does not exist."]) := by
  constructor
  · unfold add_node
    rw [if_pos hdup]
  · unfold remove_node
    rw [hmiss]

theorem claim_C7_witness :
    add_node String.length 3
        { vnode_count := 1, replication_factor := 3, ring := [3],
          vmap := [(3, "a")], nodes := [("a", 1)] } "a" 1 =
      some ({ vnode_count := 1, replication_factor := 3, ring := [3],
              vmap := [(3, "a")], nodes := [("a", 1)] },
            ["Warning: Node 'a' already exists."]) ∧
    remove_node String.length 3
        { vnode_count := 1, replication_factor := 3, ring := [3],
          vmap := [(3, "a")], nodes := [("a", 1)] } "b" =
      some ({ vnode_count := 1, replication_factor := 3, ring := [3],
              vmap := [(3, "a")], nodes := [("a", 1)] },
            ["Warning: Node 'b' does not exist."]) :=
  claim_C7 String.length 3
    { vnode_count := 1, replication_factor := 3, ring := [3],
      vmap := [(3, "a")], nodes := [("a", 1)] } "a" "b" 1 (by decide) (by decide)

/-- Claim C8: on an empty Ring, `get_node` answers `none` and
`get_nodes_for_key` answers the empty list, each emitting the no-nodes
diagnostic and neither failing, for every key, fuel and replica count. -/
theorem claim_C8 (hf : String → Nat) (fuel : Nat) (s : RingState) (key : String)
    (rc : Option Nat) (hemp : s.ring = []) :
    get_node hf s key = (s, ["Warning: No nodes in the hash ring."], none) ∧
    get_nodes_for_key hf fuel s key rc =
      some (s, ["Warning: No nodes in the hash ring."], []) := by
  constructor
  · unfold get_node
    rw [if_pos (by rw [hemp]; rfl)]
  · unfold get_nodes_for_key
    rw [if_pos (by rw [hemp]; rfl)]

theorem claim_C8_witness :
    get_node String.length (initRing 100 3) "key" =
      (initRing 100 3, ["Warning: No nodes in the hash ring."], none) ∧
    get_nodes_for_key String.length 7 (initRing 100 3) "key" (some 2) =
      some (initRing 100 3, ["Warning: No nodes in the hash ring."], []) :=
  claim_C8 String.length 7 (initRing 100 3) "key" (some 2) rfl

/-- Claim C9: the query operations leave the ring state untouched: the
state component of `get_node`'s result is the input state, and so is the
state component of any completed `get_nodes_for_key` call. -/
theorem claim_C9 (hf : String → Nat) (fuel : Nat) (s : RingState) (key : String)
    (rc : Option Nat) :
    (get_node hf s key).1 = s ∧
    ∀ out, get_nodes_for_key hf fuel s key rc = some out → out.1 = s :=
  ⟨get_node_state_eq hf s key, fun _ hout => get_nodes_for_key_state_eq hout⟩

theorem claim_C9_witness :
    (get_node String.length
        { vnode_count := 1, replication_factor := 3, ring := [3],
          vmap := [(3, "a")], nodes := [("a", 1)] } "kk").1 =
      { vnode_count := 1, replication_factor := 3, ring := [3],
        vmap := [(3, "a")], nodes := [("a", 1)] } :=
  (claim_C9 String.length 1
    { vnode_count := 1, replication_factor := 3, ring := [3],
      vmap := [(3, "a")], nodes := [("a", 1)] } "kk" (some 1)).1

/-- Claim C2: on a non-empty sorted Ring, `get_node` hashes the key and
answers the owner (per the Hash→Owner Map) of the smallest ring hash at
least the key's hash, wrapping to the smallest ring hash when the key's
hash exceeds every entry, as captured by the spec-side `spec_owner`. -/
theorem claim_C2 (hf : String → Nat) (s : RingState) (key : String)
    (hne : s.ring ≠ []) (hs : List.Sorted (· ≤ ·) s.ring) :
    (get_node hf s key).2.2 = spec_owner s (hf key) := by
  have hemp : s.ring.isEmpty = false := by
    rcases hr : s.ring with _ | ⟨a, t⟩
    · exact absurd hr hne
    · rfl
  unfold get_node spec_owner
  rw [if_neg (by simp [hemp]), if_neg (by simp [hemp])]
  have hb := @sorted_bisect_target (hf key) s.ring hne hs
  rw [show bisect_left s.ring (hf key) =
      s.ring.countP (fun h => decide (h < hf key)) from rfl]
  rcases hsge : smallestGE s.ring (hf key) with _ | h'
  · rw [hsge] at hb
    dsimp only at hb ⊢
    rw [← hb]
  · rw [hsge] at hb
    dsimp only at hb ⊢
    injection hb with hb
    rw [hb]

theorem claim_C2_witness :
    (get_node String.length
        { vnode_count := 1, replication_factor := 3, ring := [3, 5],
          vmap := [(3, "a"), (5, "b")], nodes := [("a", 1), ("b", 1)] } "hhhh").2.2 =
      spec_owner
        { vnode_count := 1, replication_factor := 3, ring := [3, 5],
          vmap := [(3, "a"), (5, "b")], nodes := [("a", 1), ("b", 1)] }
        (String.length "hhhh") :=
  claim_C2 String.length
    { vnode_count := 1, replication_factor := 3, ring := [3, 5],
      vmap := [(3, "a"), (5, "b")], nodes := [("a", 1), ("b", 1)] } "hhhh"
    (by decide) (by decide)

/-- Claim C6: a completed admission of an unregistered node (which, per
invariant 4, owns no hash beforehand) with positive weight leaves it
owning exactly floor(vnode_count × weight) hashes in the Hash→Owner Map,
each inserted into the Ring. -/
theorem claim_C6 (hf : String → Nat) (fuel : Nat) (s : RingState) (nid : String)
    (w : Rat) (s1 : RingState) (lg : List String)
    (hnew : alookup s.nodes nid = none)
    (hnotown : nid ∉ s.vmap.map Prod.snd)
    (hw : 0 < w)
    (hdone : add_node hf fuel s nid w = some (s1, lg)) :
    (s1.vmap.filter (fun p => decide (p.2 = nid))).length =
      (⌊(s.vnode_count : Rat) * w⌋).toNat ∧
    ∀ p ∈ s1.vmap, p.2 = nid → p.1 ∈ s1.ring := by
  unfold add_node at hdone
  rw [if_neg (by simp [hnew])] at hdone
  rcases hfold : (List.range (totalVnodes s.vnode_count w)).foldlM
      (addOneVnode hf fuel nid) (s.ring, s.vmap) with _ | pr
  · rw [hfold] at hdone
    simp at hdone
  · obtain ⟨r, m⟩ := pr
    rw [hfold] at hdone
    dsimp only at hdone
    injection hdone with hpair
    injection hpair with hs1 hlg
    rcases addFold_characterize (List.range (totalVnodes s.vnode_count w))
        s.ring s.vmap (r, m) hfold with ⟨new, hout, hval, hlen, hnd, hfresh⟩
    injection hout with hr hm
    have hs1vm : s1.vmap = m := by
      rw [← hs1]
    have hs1ring : s1.ring = List.insertionSort (· ≤ ·) r := by
      rw [← hs1]
    constructor
    · rw [hs1vm, hm, List.filter_append]
      have hfil1 : s.vmap.filter (fun p => decide (p.2 = nid)) = [] := by
        rw [List.filter_eq_nil_iff]
        intro p hp
        simp only [decide_eq_true_eq]
        intro hp2
        exact hnotown (List.mem_map.mpr ⟨p, hp, hp2⟩)
      have hfil2 : new.filter (fun p => decide (p.2 = nid)) = new := by
        rw [List.filter_eq_self]
        intro p hp
        simp [hval p hp]
      rw [hfil1, hfil2, List.nil_append, hlen, List.length_range]
      rfl
    · intro p hp hp2
      rw [hs1vm, hm] at hp
      rcases List.mem_append.mp hp with hp | hp
      · exact absurd (List.mem_map.mpr ⟨p, hp, hp2⟩) hnotown
      · rw [hs1ring]
        apply (List.perm_insertionSort _ r).mem_iff.mpr
        rw [hr]
        exact List.mem_append_right _ (List.mem_map.mpr ⟨p, hp, rfl⟩)

theorem totalVnodes_one (vc : Nat) : totalVnodes vc 1 = vc := by
  simp [totalVnodes]

theorem claim_C6_witness :
    ((({ vnode_count := 1, replication_factor := 3, ring := [3],
          vmap := [(3, "a")], nodes := [("a", 1)] } : RingState).vmap).filter
        (fun p => decide (p.2 = "a"))).length =
      (⌊(((initRing 1 3).vnode_count : Nat) : Rat) * 1⌋).toNat :=
  (claim_C6 String.length 0 (initRing 1 3) "a" 1
    { vnode_count := 1, replication_factor := 3, ring := [3],
      vmap := [(3, "a")], nodes := [("a", 1)] }
    ["Node 'a' added with 1 virtual nodes."]
    rfl (by decide) (by decide)
    (by
      unfold add_node
      rw [show totalVnodes (initRing 1 3).vnode_count 1 = 1 from totalVnodes_one 1]
      rfl)).1

/-- Claim C5: after every completed operation from a state satisfying the
structural invariants — Ring sorted ascending without duplicates, the
Hash→Owner Map's key set equal to the Ring's value set, unique dict keys —
the resulting state satisfies them again (the queries return the state
unchanged). -/
theorem claim_C5 (hf : String → Nat) (fuel : Nat) (s : RingState)
    (nid : String) (w : Rat) (key : String) (rc : Option Nat)
    (hinv : Inv12 s) :
    (∀ s1 lg, add_node hf fuel s nid w = some (s1, lg) → Inv12 s1) ∧
    (∀ s2 lg, remove_node hf fuel s nid = some (s2, lg) → Inv12 s2) ∧
    Inv12 (get_node hf s key).1 ∧
    (∀ out, get_nodes_for_key hf fuel s key rc = some out → Inv12 out.1) := by
  obtain ⟨hsort, hnd, hiff, hmnd, hnnd⟩ := hinv
  refine ⟨?_, ?_, ?_, ?_⟩
  · intro s1 lg hdone
    unfold add_node at hdone
    by_cases hdup : (alookup s.nodes nid).isSome = true
    · rw [if_pos hdup] at hdone
      injection hdone with hpair
      injection hpair with h1 h2
      rw [← h1]
      exact ⟨hsort, hnd, hiff, hmnd, hnnd⟩
    · rw [if_neg hdup] at hdone
      rcases hfold : (List.range (totalVnodes s.vnode_count w)).foldlM
          (addOneVnode hf fuel nid) (s.ring, s.vmap) with _ | pr
      · rw [hfold] at hdone
        simp at hdone
      · obtain ⟨r, m⟩ := pr
        rw [hfold] at hdone
        dsimp only at hdone
        injection hdone with hpair
        injection hpair with h1 h2
        rcases addFold_characterize _ _ _ _ hfold with ⟨new, hout, hval, hlen, hknd, hfresh⟩
        injection hout with hr hm
        have hfreshr : ∀ k ∈ new.map Prod.fst, k ∉ s.ring := by
          intro k hk
          rcases List.mem_map.mp hk with ⟨p, hp, hpk⟩
          rw [← hpk]
          intro hcontra
          have := (alookup_eq_none s.vmap p.1).mp (hfresh p hp)
          exact this ((hiff p.1).mpr hcontra)
        have happnd : (s.ring ++ new.map Prod.fst).Nodup := by
          refine List.Nodup.append hnd hknd ?_
          intro a ha hb
          exact hfreshr a hb ha
        rw [← h1]
        refine ⟨?_, ?_, ?_, ?_, ?_⟩
        · exact List.sorted_insertionSort (· ≤ ·) r
        · apply (List.perm_insertionSort (· ≤ ·) r).nodup_iff.mpr
          rw [hr]
          exact happnd
        · intro h
          show h ∈ m.map Prod.fst ↔ h ∈ List.insertionSort (· ≤ ·) r
          rw [(List.perm_insertionSort (· ≤ ·) r).mem_iff, hr, hm, List.map_append,
            List.mem_append, List.mem_append]
          exact or_congr (hiff h) Iff.rfl
        · show (m.map Prod.fst).Nodup
          rw [hm, List.map_append]
          refine List.Nodup.append hmnd hknd ?_
          intro a ha hb
          rcases List.mem_map.mp hb with ⟨p, hp, hpk⟩
          have := (alookup_eq_none s.vmap p.1).mp (hfresh p hp)
          rw [← hpk] at ha
          exact this ha
        · show ((s.nodes ++ [(nid, w)]).map Prod.fst).Nodup
          rw [List.map_append]
          refine List.Nodup.append hnnd (by simp) ?_
          intro a ha hb
          simp at hb
          subst hb
          exact hdup ((alookup_isSome s.nodes a).mpr ha)
  · intro s2 lg hdone
    unfold remove_node at hdone
    rcases hlook : alookup s.nodes nid with _ | w'
    · rw [hlook] at hdone
      injection hdone with hpair
      injection hpair with h1 h2
      rw [← h1]
      exact ⟨hsort, hnd, hiff, hmnd, hnnd⟩
    · rw [hlook] at hdone
      dsimp only at hdone
      rcases hfold : (List.range (totalVnodes s.vnode_count w')).foldlM
          (markVnode hf fuel s.vmap nid) ([], []) with _ | mpr
      · rw [hfold] at hdone
        simp at hdone
      · obtain ⟨toRemove, warns⟩ := mpr
        rw [hfold] at hdone
        dsimp only at hdone
        rcases hreb : rebuildRing s.vmap toRemove s.ring with _ | rr
        · rw [hreb] at hdone
          simp at hdone
        · obtain ⟨r2, m2⟩ := rr
          rw [hreb] at hdone
          dsimp only at hdone
          injection hdone with hpair
          injection hpair with h1 h2
          rcases rebuild_characterize s.ring r2 m2 hreb with ⟨hr2, hlk, hkeys, hent⟩
          rw [← h1]
          refine ⟨?_, ?_, ?_, ?_, ?_⟩
          · show List.Sorted (· ≤ ·) r2
            rw [hr2]
            exact List.Pairwise.filter _ hsort
          · show r2.Nodup
            rw [hr2]
            exact List.Nodup.filter _ hnd
          · intro h
            show h ∈ m2.map Prod.fst ↔ h ∈ r2
            rw [hkeys]
          · show (m2.map Prod.fst).Nodup
            rw [hkeys, hr2]
            exact List.Nodup.filter _ hnd
          · show ((s.nodes.filter fun p => decide (p.1 ≠ nid)).map Prod.fst).Nodup
            exact List.Nodup.sublist (List.Sublist.map _ (List.filter_sublist _)) hnnd
  · rw [get_node_state_eq]
    exact ⟨hsort, hnd, hiff, hmnd, hnnd⟩
  · intro out hout
    rw [get_nodes_for_key_state_eq hout]
    exact ⟨hsort, hnd, hiff, hmnd, hnnd⟩

theorem claim_C5_witness :
    Inv12 (get_node String.length
      { vnode_count := 1, replication_factor := 3, ring := [3],
        vmap := [(3, "a")], nodes := [("a", 1)] } "kk").1 :=
  (claim_C5 String.length 1
    { vnode_count := 1, replication_factor := 3, ring := [3],
      vmap := [(3, "a")], nodes := [("a", 1)] } "b" 1 "kk" (some 1)
    ⟨by decide, by decide, fun _ => Iff.rfl, by decide, by decide⟩).2.2.1

/-- Claim C4 fails as stated: adding a node whose weight yields zero
virtual nodes (floor(100 × 1/200) = 0) completes, registers the node, and
leaves it owning no hash, so the owner set of the Hash→Owner Map no longer
equals the Node Registry's key set. -/
theorem claim_C4_counterexample :
    add_node String.length 0 (initRing 100 3) "a" (1 / 200) =
      some ({ vnode_count := 100, replication_factor := 3, ring := [],
              vmap := [], nodes := [("a", 1 / 200)] },
            ["Node 'a' added with 0 virtual nodes."]) ∧
    ¬ Inv4 { vnode_count := 100, replication_factor := 3, ring := [],
             vmap := [], nodes := [("a", 1 / 200)] } := by
  constructor
  · have hT : totalVnodes (initRing 100 3).vnode_count (1 / 200) = 0 := by
      unfold totalVnodes initRing
      have hfl : ⌊(100 : Rat) * (1 / 200)⌋ = 0 := by
        rw [Int.floor_eq_zero_iff]
        constructor <;> norm_num
      norm_num [hfl]
    unfold add_node
    rw [hT]
    rfl
  · intro hinv
    have := (hinv "a").mpr (by simp)
    simp at this

/-- Claim C4 (amended): from a state satisfying the structural invariants
and invariant 4, a completed `add_node` that grants the node at least one
virtual node preserves invariant 4; and a completed `remove_node` whose
target's owned hashes are exactly the unsalted hashes of its vnode keys
(no salting drift) preserves invariant 4.  The no-op branches preserve it
unconditionally. -/
theorem claim_C4_amended (hf : String → Nat) (fuel : Nat) (s : RingState)
    (nid : String) (w : Rat)
    (hinv : Inv12 s) (hinv4 : Inv4 s) :
    (∀ s1 lg, 1 ≤ totalVnodes s.vnode_count w →
      add_node hf fuel s nid w = some (s1, lg) → Inv4 s1) ∧
    (∀ s2 lg,
      (∀ w', alookup s.nodes nid = some w' →
        ∀ h, (alookup s.vmap h = some nid ↔
          ∃ i, i < totalVnodes s.vnode_count w' ∧ hf (vnodeKey nid i) = h)) →
      remove_node hf fuel s nid = some (s2, lg) → Inv4 s2) := by
  obtain ⟨hsort, hnd, hiff, hmnd, hnnd⟩ := hinv
  constructor
  · intro s1 lg hT hdone
    unfold add_node at hdone
    by_cases hdup : (alookup s.nodes nid).isSome = true
    · rw [if_pos hdup] at hdone
      injection hdone with hpair
      injection hpair with h1 h2
      rw [← h1]
      exact hinv4
    · rw [if_neg hdup] at hdone
      rcases hfold : (List.range (totalVnodes s.vnode_count w)).foldlM
          (addOneVnode hf fuel nid) (s.ring, s.vmap) with _ | pr
      · rw [hfold] at hdone
        simp at hdone
      · obtain ⟨r, m⟩ := pr
        rw [hfold] at hdone
        dsimp only at hdone
        injection hdone with hpair
        injection hpair with h1 h2
        rcases addFold_characterize _ _ _ _ hfold with ⟨new, hout, hval, hlen, hknd, hfresh⟩
        injection hout with hr hm
        have hne : new ≠ [] := by
          intro hnil
          rw [hnil] at hlen
          simp [List.length_range] at hlen
          omega
        rw [← h1]
        intro n
        show n ∈ m.map Prod.snd ↔ n ∈ (s.nodes ++ [(nid, w)]).map Prod.fst
        rw [hm, List.map_append, List.map_append, List.mem_append, List.mem_append]
        refine or_congr (hinv4 n) ?_
        constructor
        · intro hmem
          rcases List.mem_map.mp hmem with ⟨p, hp, hpn⟩
          simp [← hpn, hval p hp]
        · intro hmem
          simp at hmem
          subst hmem
          rcases List.exists_mem_of_ne_nil new hne with ⟨p, hp⟩
          exact List.mem_map.mpr ⟨p, hp, hval p hp⟩
  · intro s2 lg hharm hdone
    unfold remove_node at hdone
    rcases hlook : alookup s.nodes nid with _ | w'
    · rw [hlook] at hdone
      injection hdone with hpair
      injection hpair with h1 h2
      rw [← h1]
      exact hinv4
    · rw [hlook] at hdone
      dsimp only at hdone
      have hharm' := hharm w' hlook
      rcases markFold_all_found (List.range (totalVnodes s.vnode_count w')) [] []
          (fun i hi => (hharm' (hf (vnodeKey nid i))).mpr
            ⟨i, List.mem_range.mp hi, rfl⟩) with ⟨M, hfoldlem, hM⟩
      rw [hfoldlem] at hdone
      dsimp only at hdone
      have hMx : ∀ h, h ∈ M ↔ alookup s.vmap h = some nid := by
        intro h
        rw [hM h, hharm' h]
        simp [List.mem_range]
      rcases hreb : rebuildRing s.vmap M s.ring with _ | rr
      · rw [hreb] at hdone
        simp at hdone
      · obtain ⟨r2, m2⟩ := rr
        rw [hreb] at hdone
        dsimp only at hdone
        injection hdone with hpair
        injection hpair with h1 h2
        rcases rebuild_characterize s.ring r2 m2 hreb with ⟨hr2, hlk, hkeys, hent⟩
        rw [← h1]
        intro n
        show n ∈ m2.map Prod.snd ↔
          n ∈ (s.nodes.filter fun p => decide (p.1 ≠ nid)).map Prod.fst
        have hrhs : (n ∈ (s.nodes.filter fun p => decide (p.1 ≠ nid)).map Prod.fst) ↔
            n ∈ s.nodes.map Prod.fst ∧ n ≠ nid := by
          constructor
          · intro hmem
            rcases List.mem_map.mp hmem with ⟨p, hp, hpn⟩
            rcases List.mem_filter.mp hp with ⟨hp1, hp2⟩
            simp at hp2
            exact ⟨List.mem_map.mpr ⟨p, hp1, hpn⟩, hpn ▸ hp2⟩
          · intro hmem
            rcases List.mem_map.mp hmem.1 with ⟨p, hp, hpn⟩
            refine List.mem_map.mpr ⟨p, List.mem_filter.mpr ⟨hp, ?_⟩, hpn⟩
            simp [hpn, hmem.2]
        rw [hrhs]
        constructor
        · intro hmem
          rcases List.mem_map.mp hmem with ⟨p, hp, hpn⟩
          rcases (hent p).mp hp with ⟨hp1, hp2⟩
          rw [hr2] at hp1
          rcases List.mem_filter.mp hp1 with ⟨hring, hnm⟩
          simp at hnm
          rw [hpn] at hp2
          constructor
          · exact (hinv4 n).mp (alookup_mem_values hp2)
          · intro hcontra
            rw [hcontra] at hp2
            exact hnm ((hMx p.1).mpr hp2)
        · intro hmem
          rcases List.mem_map.mp ((hinv4 n).mpr hmem.1) with ⟨p, hp, hpn⟩
          have hplook : alookup s.vmap p.1 = some n := by
            rw [← hpn]
            exact mem_alookup hmnd hp
          have hpring : p.1 ∈ s.ring :=
            (hiff p.1).mp (List.mem_map.mpr ⟨p, hp, rfl⟩)
          have hpnm : p.1 ∉ M := by
            intro hcontra
            have := (hMx p.1).mp hcontra
            rw [hplook] at this
            injection this with hne
            exact hmem.2 hne
          refine List.mem_map.mpr ⟨(p.1, n), (hent (p.1, n)).mpr ⟨?_, hplook⟩, rfl⟩
          rw [hr2]
          refine List.mem_filter.mpr ⟨hpring, ?_⟩
          simp [hpnm]

theorem add_node_eval {hf : String → Nat} {fuel : Nat} {s : RingState}
    {nid : String} {w : Rat} {T : Nat}
    (hg : (alookup s.nodes nid).isSome = false)
    (hT : totalVnodes s.vnode_count w = T) :
    add_node hf fuel s nid w =
      match (List.range T).foldlM (addOneVnode hf fuel nid) (s.ring, s.vmap) with
      | none => none
      | some (r, m) =>
        some ({ s with ring := List.insertionSort (· ≤ ·) r, vmap := m, nodes := s.nodes ++ [(nid, w)] },
              ["Node '" ++ nid ++ "' added with " ++ toString T ++
                " virtual nodes."]) := by
  unfold add_node
  rw [if_neg (by simp [hg]), hT]

theorem remove_node_eval {hf : String → Nat} {fuel : Nat} {s : RingState}
    {nid : String} {w : Rat} {T : Nat}
    (hlook : alookup s.nodes nid = some w)
    (hT : totalVnodes s.vnode_count w = T) :
    remove_node hf fuel s nid =
      match (List.range T).foldlM (markVnode hf fuel s.vmap nid) ([], []) with
      | none => none
      | some (toRemove, warns) =>
        match rebuildRing s.vmap toRemove s.ring with
        | none => none
        | some (r, m) =>
          some ({ s with ring := r, vmap := m, nodes := s.nodes.filter (fun p => decide (p.1 ≠ nid)) },
                warns ++ ["Node '" ++ nid ++ "' removed with " ++
                  toString toRemove.length ++ " virtual nodes from the hash ring."]) := by
  unfold remove_node
  rw [hlook]
  dsimp only
  rw [hT]

theorem claim_C4_witness :
    Inv4 { vnode_count := 1, replication_factor := 3, ring := [],
           vmap := [], nodes := [] } :=
  (claim_C4_amended String.length 9
    { vnode_count := 1, replication_factor := 3, ring := [3],
      vmap := [(3, "a")], nodes := [("a", 1)] } "a" 1
    ⟨by decide, by decide, fun _ => Iff.rfl, by decide, by decide⟩
    (fun _ => Iff.rfl)).2
    { vnode_count := 1, replication_factor := 3, ring := [],
      vmap := [], nodes := [] }
    ["Node 'a' removed with 1 virtual nodes from the hash ring."]
    (by
      intro w' hw' h
      have hw1 : w' = 1 := by
        have hsw : some (1 : Rat) = some w' := hw'
        injection hsw with h1
        exact h1.symm
      subst hw1
      rw [show totalVnodes ({ vnode_count := 1, replication_factor := 3, ring := [3], vmap := [(3, "a")], nodes := [("a", 1)] } : RingState).vnode_count 1 = 1 from totalVnodes_one 1]
      constructor
      · intro hl
        by_cases h3 : (3 : Nat) = h
        · refine ⟨0, by omega, ?_⟩
          rw [← h3]
          rfl
        · simp only [alookup] at hl
          rw [if_neg h3] at hl
          exact absurd hl (by simp)
      · rintro ⟨i, hi, hlen⟩
        have hi0 : i = 0 := by omega
        subst hi0
        have h3 : h = 3 := by
          rw [← hlen]
          rfl
        subst h3
        rfl)
    (by
      rw [remove_node_eval (show alookup ({ vnode_count := 1, replication_factor := 3, ring := [3], vmap := [(3, "a")], nodes := [("a", 1)] } : RingState).nodes "a" = some 1 from rfl) (show totalVnodes ({ vnode_count := 1, replication_factor := 3, ring := [3], vmap := [(3, "a")], nodes := [("a", 1)] } : RingState).vnode_count 1 = 1 from totalVnodes_one 1)]
      rfl)

/-- Claim C3: on a non-empty ring state satisfying the map/ring and
registry invariants, `get_nodes_for_key` with a full ring pass of fuel
returns exactly min(R, number of registered nodes) pairwise-distinct node
ids, and emits the clamping diagnostic exactly when R exceeds the number
of registered nodes. -/
theorem claim_C3 (hf : String → Nat) (s : RingState) (key : String) (R : Nat)
    (hne : s.ring ≠ [])
    (hcov : ∀ h, h ∈ s.vmap.map Prod.fst ↔ h ∈ s.ring)
    (hknd : (s.nodes.map Prod.fst).Nodup)
    (hreg : ∀ n ∈ s.nodes.map Prod.fst, ∃ h, alookup s.vmap h = some n) :
    ∀ out, get_nodes_for_key hf s.ring.length s key (some R) = some out →
      out.2.2.length = min R s.nodes.length ∧
      out.2.2.Nodup ∧
      out.2.1 = (if s.nodes.length < R then
        ["Warning: Requested replica count exceeds number of available nodes. Adjusting to maximum available nodes."]
        else []) := by
  intro out hout
  have hlen : 0 < s.ring.length := by
    rcases hr : s.ring with _ | ⟨a, t⟩
    · exact absurd hr hne
    · simp
  have hemp : s.ring.isEmpty = false := by
    rcases hr : s.ring with _ | ⟨a, t⟩
    · exact absurd hr hne
    · rfl
  have hcov' : ∀ h ∈ s.ring, (alookup s.vmap h).isSome = true :=
    fun h hh => (alookup_isSome s.vmap h).mpr ((hcov h).mpr hh)
  have hreg' : ∀ n ∈ s.nodes.map Prod.fst, ∃ h ∈ s.ring, alookup s.vmap h = some n := by
    intro n hn
    rcases hreg n hn with ⟨h, hlk⟩
    refine ⟨h, ?_, hlk⟩
    apply (hcov h).mp
    apply (alookup_isSome s.vmap h).mp
    rw [hlk]
    rfl
  have hrc : (if s.nodes.length < R then s.nodes.length else R) ≤
      (s.nodes.map Prod.fst).length := by
    rw [List.length_map]
    by_cases hR : s.nodes.length < R <;> simp [hR] <;> omega
  have hidx : bisect_left s.ring (hf key) % s.ring.length < s.ring.length :=
    Nat.mod_lt _ hlen
  have hwalk := walk_succeeds hlen hcov' hknd hreg' hrc hidx
  unfold get_nodes_for_key at hout
  rw [if_neg (by simp [hemp])] at hout
  simp only [Option.getD] at hout
  rw [hwalk] at hout
  injection hout with hout
  rw [← hout]
  refine ⟨?_, ?_, rfl⟩
  · show ((collectAll _ []).take _).length = _
    rw [List.length_take, min_eq_left (le_trans hrc (collectAll_covers_keys hlen hknd hreg' hidx))]
    by_cases hR : s.nodes.length < R
    · rw [if_pos hR]
      omega
    · rw [if_neg hR]
      omega
  · show ((collectAll _ []).take _).Nodup
    exact List.Nodup.sublist (List.take_sublist _ _) (collectAll_nodup _ [] List.nodup_nil)

/-- Claim C10: in a ring state whose map covers the ring and in which
every registered node owns at least one hash of the map (which, by
invariant 2, lies on the ring), the collecting walk of
`get_nodes_for_key` terminates within one full pass of the ring, for
every key and requested replica count. -/
theorem claim_C10 (hf : String → Nat) (s : RingState) (key : String) (R : Option Nat)
    (hcov : ∀ h, h ∈ s.vmap.map Prod.fst ↔ h ∈ s.ring)
    (hknd : (s.nodes.map Prod.fst).Nodup)
    (hreg : ∀ n ∈ s.nodes.map Prod.fst, ∃ h, alookup s.vmap h = some n) :
    (get_nodes_for_key hf s.ring.length s key R).isSome = true := by
  by_cases hemp : s.ring.isEmpty
  · unfold get_nodes_for_key
    rw [if_pos hemp]
    rfl
  · have hne : s.ring ≠ [] := by
      intro h
      rw [h] at hemp
      exact hemp rfl
    have hlen : 0 < s.ring.length := by
      rcases hr : s.ring with _ | ⟨a, t⟩
      · exact absurd hr hne
      · simp
    have hcov' : ∀ h ∈ s.ring, (alookup s.vmap h).isSome = true :=
      fun h hh => (alookup_isSome s.vmap h).mpr ((hcov h).mpr hh)
    have hreg' : ∀ n ∈ s.nodes.map Prod.fst, ∃ h ∈ s.ring, alookup s.vmap h = some n := by
      intro n hn
      rcases hreg n hn with ⟨h, hlk⟩
      refine ⟨h, ?_, hlk⟩
      apply (hcov h).mp
      apply (alookup_isSome s.vmap h).mp
      rw [hlk]
      rfl
    have hrc : (if s.nodes.length < R.getD s.replication_factor then s.nodes.length
        else R.getD s.replication_factor) ≤ (s.nodes.map Prod.fst).length := by
      rw [List.length_map]
      by_cases hR : s.nodes.length < R.getD s.replication_factor <;> simp [hR] <;> omega
    have hidx : bisect_left s.ring (hf key) % s.ring.length < s.ring.length :=
      Nat.mod_lt _ hlen
    have hwalk := walk_succeeds hlen hcov' hknd hreg' hrc hidx
    unfold get_nodes_for_key
    rw [if_neg hemp]
    dsimp only
    rw [hwalk]
    rfl

theorem claim_C3_witness :
    ((sTwo, ([] : List String), ["a", "b"]) :
        RingState × List String × List String).2.2.length = min 2 sTwo.nodes.length ∧
    ((sTwo, ([] : List String), ["a", "b"]) :
        RingState × List String × List String).2.2.Nodup ∧
    ((sTwo, ([] : List String), ["a", "b"]) :
        RingState × List String × List String).2.1 =
      (if sTwo.nodes.length < 2 then
        ["Warning: Requested replica count exceeds number of available nodes. Adjusting to maximum available nodes."]
        else []) :=
  claim_C3 String.length sTwo "kk" 2 (by decide) (fun _ => Iff.rfl) (by decide)
    (by
      intro n hn
      simp [sTwo] at hn
      rcases hn with h | h
      · subst h
        exact ⟨3, rfl⟩
      · subst h
        exact ⟨5, rfl⟩)
    (sTwo, [], ["a", "b"]) rfl

theorem claim_C10_witness :
    (get_nodes_for_key String.length sTwo.ring.length sTwo "k" (some 5)).isSome = true :=
  claim_C10 String.length sTwo "k" (some 5) (fun _ => Iff.rfl) (by decide)
    (by
      intro n hn
      simp [sTwo] at hn
      rcases hn with h | h
      · subst h
        exact ⟨3, rfl⟩
      · subst h
        exact ⟨5, rfl⟩)

/-- Claim C1 fails as stated: under a hash function where the node's two
vnode keys collide, `add_node` salts the second vnode to a fresh hash, but
`remove_node`'s differently-conditioned walk stops both times at the first
hash, orphaning the salted vnode; `get_node` then answers the removed node
where it answered nothing before (section 9 of the spec flags exactly this
divergence between the two collision walks). -/
theorem claim_C1_counterexample :
    add_node cexHF 5 (initRing 2 1) "n" 1 =
      some ({ vnode_count := 2, replication_factor := 1, ring := [5, 7], vmap := [(5, "n"), (7, "n")], nodes := [("n", 1)] },
            ["Node 'n' added with 2 virtual nodes."]) ∧
    remove_node cexHF 5
      { vnode_count := 2, replication_factor := 1, ring := [5, 7], vmap := [(5, "n"), (7, "n")], nodes := [("n", 1)] } "n" =
      some ({ vnode_count := 2, replication_factor := 1, ring := [7], vmap := [(7, "n")], nodes := [] },
            ["Node 'n' removed with 1 virtual nodes from the hash ring."]) ∧
    (get_node cexHF { vnode_count := 2, replication_factor := 1, ring := [7], vmap := [(7, "n")], nodes := [] } "k").2.2 ≠
      (get_node cexHF (initRing 2 1) "k").2.2 := by
  refine ⟨?_, ?_, ?_⟩
  · rw [add_node_eval (show (alookup (initRing 2 1).nodes "n").isSome = false from rfl) (show totalVnodes (initRing 2 1).vnode_count 1 = 2 from totalVnodes_one 2)]
    rfl
  · rw [remove_node_eval (show alookup ({ vnode_count := 2, replication_factor := 1, ring := [5, 7], vmap := [(5, "n"), (7, "n")], nodes := [("n", 1)] } : RingState).nodes "n" = some 1 from rfl) (show totalVnodes ({ vnode_count := 2, replication_factor := 1, ring := [5, 7], vmap := [(5, "n"), (7, "n")], nodes := [("n", 1)] } : RingState).vnode_count 1 = 2 from totalVnodes_one 2)]
    rfl
  · decide

/-- Claim C1 (amended): if the hash function gives the new node's vnode
keys pairwise-distinct hashes absent from the Hash→Owner Map (so the add
triggers no collision salting), then for every state satisfying the
structural invariants in which the node is neither registered nor an
owner, a completed `add_node` followed by a completed `remove_node` of
that node restores every key's `get_node` owner. -/
theorem claim_C1_amended (hf : String → Nat) (fa fr : Nat) (s : RingState)
    (nid : String) (w : Rat) (p1 p2 : RingState × List String)
    (hinv : Inv12 s)
    (hnew : alookup s.nodes nid = none)
    (hfresh : ∀ i < totalVnodes s.vnode_count w,
      alookup s.vmap (hf (vnodeKey nid i)) = none)
    (hdist : ∀ i < totalVnodes s.vnode_count w, ∀ j < totalVnodes s.vnode_count w,
      hf (vnodeKey nid i) = hf (vnodeKey nid j) → i = j)
    (hadd : add_node hf fa s nid w = some p1)
    (hrem : remove_node hf fr p1.1 nid = some p2) :
    ∀ key, (get_node hf p2.1 key).2.2 = (get_node hf s key).2.2 := by
  obtain ⟨hsort, hnd, hiff, hmnd, hnnd⟩ := hinv
  have hfold := @addFold_noSalt hf fa nid (List.range (totalVnodes s.vnode_count w))
    s.ring s.vmap
    (fun i hi => hfresh i (List.mem_range.mp hi))
    (fun i hi j hj => hdist i (List.mem_range.mp hi) j (List.mem_range.mp hj))
    (List.nodup_range _)
  unfold add_node at hadd
  rw [if_neg (by simp [hnew]), hfold] at hadd
  dsimp only at hadd
  injection hadd with hp
  have hp1 : p1.1 =
      { s with
        ring := List.insertionSort (· ≤ ·)
          (s.ring ++ (List.range (totalVnodes s.vnode_count w)).map
            (fun i => hf (vnodeKey nid i))),
        vmap := s.vmap ++ (List.range (totalVnodes s.vnode_count w)).map
          (fun i => (hf (vnodeKey nid i), nid)),
        nodes := s.nodes ++ [(nid, w)] } := by
    rw [← hp]
  have hHnodup : ((List.range (totalVnodes s.vnode_count w)).map
      (fun i => hf (vnodeKey nid i))).Nodup :=
    List.Nodup.map_on
      (fun i hi j hj he => hdist i (List.mem_range.mp hi) j (List.mem_range.mp hj) he)
      (List.nodup_range _)
  have hHPkeys : (((List.range (totalVnodes s.vnode_count w)).map
      (fun i => (hf (vnodeKey nid i), nid))).map Prod.fst) =
      (List.range (totalVnodes s.vnode_count w)).map (fun i => hf (vnodeKey nid i)) := by
    rw [List.map_map]
    rfl
  have hlook1 : ∀ i ∈ List.range (totalVnodes s.vnode_count w),
      alookup (s.vmap ++ (List.range (totalVnodes s.vnode_count w)).map
        (fun i => (hf (vnodeKey nid i), nid))) (hf (vnodeKey nid i)) = some nid := by
    intro i hi
    rw [alookup_append, hfresh i (List.mem_range.mp hi)]
    exact mem_alookup (hHPkeys ▸ hHnodup)
      (List.mem_map.mpr ⟨i, hi, rfl⟩)
  have hnodes1 : alookup (s.nodes ++ [(nid, w)]) nid = some w := by
    rw [alookup_append, hnew]
    simp [alookup]
  rcases markFold_all_found (List.range (totalVnodes s.vnode_count w)) [] [] hlook1
    with ⟨M, hfoldR, hM⟩
  rw [hp1] at hrem
  unfold remove_node at hrem
  dsimp only at hrem
  rw [hnodes1] at hrem
  dsimp only at hrem
  rw [hfoldR] at hrem
  dsimp only at hrem
  have hMx : ∀ h, h ∈ M ↔ ∃ i < totalVnodes s.vnode_count w, hf (vnodeKey nid i) = h := by
    intro h
    rw [hM h]
    simp [List.mem_range]
  rcases hreb : rebuildRing
      (s.vmap ++ (List.range (totalVnodes s.vnode_count w)).map
        (fun i => (hf (vnodeKey nid i), nid))) M
      (List.insertionSort (· ≤ ·)
        (s.ring ++ (List.range (totalVnodes s.vnode_count w)).map
          (fun i => hf (vnodeKey nid i)))) with _ | rr
  · rw [hreb] at hrem
    simp at hrem
  · obtain ⟨r2, m2⟩ := rr
    rw [hreb] at hrem
    dsimp only at hrem
    injection hrem with hq
    have hq1 : p2.1 =
        { s with
          ring := r2,
          vmap := m2,
          nodes := (s.nodes ++ [(nid, w)]).filter (fun p => decide (p.1 ≠ nid)) } := by
      rw [← hq]
    rcases rebuild_characterize _ r2 m2 hreb with ⟨hr2, hlk, hkeys, hent⟩
    have hringM : ∀ a ∈ s.ring, a ∉ M := by
      intro a ha hcontra
      rcases (hMx a).mp hcontra with ⟨i, hi, hie⟩
      have h1 : alookup s.vmap a = none := hie ▸ hfresh i hi
      have h2 : a ∈ s.vmap.map Prod.fst := (hiff a).mpr ha
      exact (alookup_eq_none s.vmap a).mp h1 h2
    have hHM : ∀ a ∈ (List.range (totalVnodes s.vnode_count w)).map
        (fun i => hf (vnodeKey nid i)), a ∈ M := by
      intro a ha
      rcases List.mem_map.mp ha with ⟨i, hi, hie⟩
      exact (hMx a).mpr ⟨i, List.mem_range.mp hi, hie⟩
    have hperm : List.Perm r2 s.ring := by
      rw [hr2]
      refine ((List.perm_insertionSort (· ≤ ·) _).filter _).trans ?_
      rw [List.filter_append]
      have h1 : s.ring.filter (fun h => decide (h ∉ M)) = s.ring :=
        List.filter_eq_self.mpr (fun a ha => by simp [hringM a ha])
      have h2 : ((List.range (totalVnodes s.vnode_count w)).map
          (fun i => hf (vnodeKey nid i))).filter (fun h => decide (h ∉ M)) = [] :=
        List.filter_eq_nil_iff.mpr (fun a ha => by simp [hHM a ha])
      rw [h1, h2, List.append_nil]
    have hr2sorted : List.Sorted (· ≤ ·) r2 := by
      rw [hr2]
      exact List.Pairwise.filter _ (List.sorted_insertionSort (· ≤ ·) _)
    have hr2eq : r2 = s.ring := List.eq_of_perm_of_sorted hperm hr2sorted hsort
    have hlkeq : ∀ h ∈ s.ring, alookup m2 h = alookup s.vmap h := by
      intro h hh
      rw [hlk h, hr2eq, if_pos hh, alookup_append]
      rcases hsome : alookup s.vmap h with _ | v
      · exact absurd ((hiff h).mpr hh) ((alookup_eq_none s.vmap h).mp hsome)
      · rfl
    intro key
    rw [hq1]
    unfold get_node
    dsimp only
    rw [hr2eq]
    by_cases hve : s.ring.isEmpty
    · rw [if_pos hve, if_pos hve]
    · rw [if_neg hve, if_neg hve]
      dsimp only
      have hlen : 0 < s.ring.length := by
        rcases hr : s.ring with _ | ⟨a, t⟩
        · rw [hr] at hve
          exact absurd rfl hve
        · simp
      have hmem : s.ring.getD (bisect_left s.ring (hf key) % s.ring.length) 0 ∈ s.ring := by
        rw [List.getD_eq_getElem s.ring 0 (Nat.mod_lt _ hlen)]
        exact List.getElem_mem _
      rw [hlkeq _ hmem]

theorem claim_C1_witness :
    (get_node String.length
      { vnode_count := 1, replication_factor := 3, ring := [],
        vmap := [], nodes := [] } "kk").2.2 =
    (get_node String.length (initRing 1 3) "kk").2.2 :=
  claim_C1_amended String.length 4 4 (initRing 1 3) "a" 1
    ({ vnode_count := 1, replication_factor := 3, ring := [3],
       vmap := [(3, "a")], nodes := [("a", 1)] },
     ["Node 'a' added with 1 virtual nodes."])
    ({ vnode_count := 1, replication_factor := 3, ring := [],
       vmap := [], nodes := [] },
     ["Node 'a' removed with 1 virtual nodes from the hash ring."])
    ⟨by decide, by decide, fun _ => Iff.rfl, by decide, by decide⟩
    rfl
    (fun i _ => rfl)
    (by
      intro i hi j hj _
      rw [show totalVnodes (initRing 1 3).vnode_count 1 = 1 from totalVnodes_one 1] at hi hj
      omega)
    (by
      rw [add_node_eval (show (alookup (initRing 1 3).nodes "a").isSome = false from rfl) (show totalVnodes (initRing 1 3).vnode_count 1 = 1 from totalVnodes_one 1)]
      rfl)
    (by
      rw [remove_node_eval (show alookup (({ vnode_count := 1, replication_factor := 3, ring := [3], vmap := [(3, "a")], nodes := [("a", 1)] } : RingState), ["Node 'a' added with 1 virtual nodes."]).1.nodes "a" = some 1 from rfl) (show totalVnodes (({ vnode_count := 1, replication_factor := 3, ring := [3], vmap := [(3, "a")], nodes := [("a", 1)] } : RingState), ["Node 'a' added with 1 virtual nodes."]).1.vnode_count 1 = 1 from totalVnodes_one 1)]
      rfl)
    "kk"
